import Mathlib

/-!
Verification of the embedding cache and the cosine-similarity recommendation
engine of `notebooks/embeddings/embedding-search.ipynb`.

Modelling conventions:
* Python floats are modelled as real numbers (`ℝ`); `np.dot` on 1-D vectors is
  the sum of pointwise products and `np.linalg.norm` is the Euclidean norm.
* Python's `sorted(range(len(d)), key ...)` is a stable ascending sort; on the
  distinct indices `0, …, len d - 1` its output is the unique list that is
  sorted with respect to the lexicographic order on the pair
  (key value, original index).  `pyKeyLE` is that total order and the sort is
  realised by `List.insertionSort`.
* The pickle-backed embedding cache is modelled as a state holding the
  in-memory dictionary and the durable (on-disk) copy.  The external OpenAI
  call `get_embedding` is a parameter, and the possibility that the
  `pickle.dump` write raises is modelled by a boolean `writeOk` flag; the
  number of external calls a step performs is returned explicitly.
-/

namespace EmbeddingSearch

/-! ### Similarity ranker (notebook cells 23–25) -/

/-- `np.dot` on two 1-D float vectors: the sum of pointwise products. -/
def dot (a b : List ℝ) : ℝ := (List.zipWith (· * ·) a b).sum

/-- `np.linalg.norm` on a 1-D float vector: the Euclidean norm. -/
noncomputable def norm (v : List ℝ) : ℝ := Real.sqrt (dot v v)

/-- The nested `cosine_similarity` of `distances_from_embeddings`:
`np.dot(e1, e2) / (np.linalg.norm(e1) * np.linalg.norm(e2))`. -/
noncomputable def cosine_similarity (embedding1 embedding2 : List ℝ) : ℝ :=
  dot embedding1 embedding2 / (norm embedding1 * norm embedding2)

/-- Source `distances_from_embeddings`: the list of cosine similarities of the
query against every embedding, in corpus order. -/
noncomputable def distances_from_embeddings (query_embedding : List ℝ)
    (embeddings : List (List ℝ)) : List ℝ :=
  embeddings.map (fun embedding => cosine_similarity query_embedding embedding)

/-- The total order realised by Python's stable ascending
`sorted(range(len(distances)), key = score of the index)`: compare score
values first and fall back to the original index for equal scores (stability).
Indices produced by the sort are always in range, so the `getD` default is
immaterial. -/
def pyKeyLE (d : List ℝ) (i j : ℕ) : Prop :=
  d.getD i 0 < d.getD j 0 ∨ (d.getD i 0 = d.getD j 0 ∧ i ≤ j)

/-- Source `indices_of_closest_matches_from_distances`:
`sorted(range(len(distances)), key = distances[i])[::-1]` — the stable
ascending sort of all indices by score, then reversed. -/
noncomputable def indices_of_closest_matches_from_distances (distances : List ℝ) : List ℕ :=
  (@List.insertionSort ℕ (pyKeyLE distances) (fun _ _ => Classical.propDecidable _)
    (List.range distances.length)).reverse

/-- The ranking operation (spec `rank`): distances of every embedding to the
query embedding, then the full descending index ranking.  This is exactly the
composition performed inside `print_recommendations_from_strings`. -/
noncomputable def rank (embeddings : List (List ℝ)) (query_index : ℕ) : List ℕ :=
  indices_of_closest_matches_from_distances
    (distances_from_embeddings (embeddings.getD query_index []) embeddings)

/-- The printing loop of `print_recommendations_from_strings`: walk the
ranking, skip indices whose text equals the query text, stop once
`k_nearest_neighbors` indices have been emitted.  Returns the list of emitted
(printed) indices; `k_counter` is the loop counter of the source. -/
def collectRecs (strings : List String) (query_string : String)
    (k_nearest_neighbors : ℕ) : List ℕ → ℕ → List ℕ
  | [], _ => []
  | i :: rest, k_counter =>
    if query_string = strings.getD i "" then
      collectRecs strings query_string k_nearest_neighbors rest k_counter
    else if k_nearest_neighbors ≤ k_counter then []
    else i :: collectRecs strings query_string k_nearest_neighbors rest (k_counter + 1)

/-- Observable outcome of `print_recommendations_from_strings`: the indices it
prints as recommendations and the value it returns. -/
structure RecResult where
  printed : List ℕ
  returned : List ℕ

/-- Source `print_recommendations_from_strings`.  The per-string embedding
lookup `embedding_from_string string` is abstracted as a function
`embed : String → List ℝ` (the cache makes the lookup a function of the text:
equal texts receive the identical cached vector).  The function prints the
collected neighbors and returns the full ranking. -/
noncomputable def print_recommendations_from_strings (embed : String → List ℝ)
    (strings : List String) (index_of_source_string : ℕ)
    (k_nearest_neighbors : ℕ) : RecResult :=
  let embeddings := strings.map embed
  let query_embedding := embeddings.getD index_of_source_string []
  let distances := distances_from_embeddings query_embedding embeddings
  let indices_of_nearest_neighbors := indices_of_closest_matches_from_distances distances
  let query_string := strings.getD index_of_source_string ""
  ⟨collectRecs strings query_string k_nearest_neighbors indices_of_nearest_neighbors 0,
   indices_of_nearest_neighbors⟩

/-- A concrete text-keyed embedding assignment used in the concrete test
cases of the spec: texts equal to `"A"` receive the vector `[1, 0]`, all
other texts receive `[0, 1]`.  Equal texts automatically share one embedding,
exactly as the text-keyed cache makes them. -/
def twoClusterEmbed : String → List ℝ :=
  fun s => if s = "A" then [1, 0] else [0, 1]

/-! ### Embedding cache (notebook cell 20) -/

/-- Cache state: the in-memory dict `embedding_cache` (keys are
(text, model) pairs) and the durable pickle-file copy. -/
structure CacheState (α : Type) where
  cache : String × String → Option α
  disk : String × String → Option α

/-- Freshly initialised cache: empty dict, empty durable store. -/
def emptyState (α : Type) : CacheState α := ⟨fun _ => none, fun _ => none⟩

/-- Outcome of one `embedding_from_string` call: the returned value (or the
propagated persistence exception), the state after the call, and how many
external `get_embedding` calls the step performed. -/
structure StepResult (α : Type) where
  ret : Except Unit α
  state : CacheState α
  externalCalls : ℕ

/-- Source `embedding_from_string`: on a hit return the stored vector with no
external call; on a miss call `get_embedding` once, insert the result into the
in-memory dict, then dump the whole dict to the pickle file and return the
new entry.  The in-memory insertion happens before the dump; when the dump
raises (`writeOk = false`) the exception propagates, the in-memory entry is
kept and the durable copy is left as it was. -/
def embedding_from_string {α : Type} (get_embedding : String → String → α)
    (writeOk : Bool) (s : CacheState α) (string model : String) : StepResult α :=
  match s.cache (string, model) with
  | some v => ⟨.ok v, s, 0⟩
  | none =>
    let v := get_embedding string model
    let cache' : String × String → Option α :=
      fun k => if k = (string, model) then some v else s.cache k
    if writeOk then ⟨.ok v, ⟨cache', cache'⟩, 1⟩
    else ⟨.error (), ⟨cache', s.disk⟩, 1⟩

/-- Run a sequence of `embedding_from_string` calls (text, model, write-ok)
from a given state. -/
def runTrace {α : Type} (get_embedding : String → String → α) :
    CacheState α → List (String × String × Bool) → CacheState α
  | s, [] => s
  | s, (t, m, w) :: rs =>
      runTrace get_embedding (embedding_from_string get_embedding w s t m).state rs

/-- Total number of external `get_embedding` calls made for the key `k` over a
sequence of `embedding_from_string` calls starting from a given state. -/
def runCalls {α : Type} (get_embedding : String → String → α) :
    CacheState α → List (String × String × Bool) → String × String → ℕ
  | _, [], _ => 0
  | s, (t, m, w) :: rs, k =>
      (if (t, m) = k then (embedding_from_string get_embedding w s t m).externalCalls else 0)
      + runCalls get_embedding (embedding_from_string get_embedding w s t m).state rs k

/-- One operation of the cache's whole lifetime across the durable store: an
`embedding_from_string` request, or a process restart that reuses the store. -/
inductive CacheOp
  | req (text model : String) (writeOk : Bool)
  | restart

/-- A process restart reusing the durable store: the startup block of cell 20
reads the pickle file into the fresh in-memory dict and immediately dumps a
copy back, leaving the durable contents unchanged. -/
def restartState {α : Type} (s : CacheState α) : CacheState α := ⟨s.disk, s.disk⟩

/-- Run a lifetime of operations (requests and restarts) from a given state. -/
def runOps {α : Type} (get_embedding : String → String → α) :
    CacheState α → List CacheOp → CacheState α
  | s, [] => s
  | s, .req t m w :: ops =>
      runOps get_embedding (embedding_from_string get_embedding w s t m).state ops
  | s, .restart :: ops => runOps get_embedding (restartState s) ops

/-- Total number of external `get_embedding` calls made for the key `k` over a
lifetime of operations (requests and restarts) starting from a given state. -/
def opsCalls {α : Type} (get_embedding : String → String → α) :
    CacheState α → List CacheOp → String × String → ℕ
  | _, [], _ => 0
  | s, .req t m w :: ops, k =>
      (if (t, m) = k then (embedding_from_string get_embedding w s t m).externalCalls else 0)
      + opsCalls get_embedding (embedding_from_string get_embedding w s t m).state ops k
  | s, .restart :: ops, k => opsCalls get_embedding (restartState s) ops k

/-- Every request in the lifetime had a successful durable-store write. -/
def writesOk : List CacheOp → Prop
  | [] => True
  | .req _ _ w :: ops => w = true ∧ writesOk ops
  | .restart :: ops => writesOk ops

/-- Possible states of the durable cache file when it is read at startup. -/
inductive CacheFile (α : Type)
  | missing
  | corrupt
  | stored (contents : String × String → Option α)

/-- The cache-load block of cell 20:
`try: embedding_cache = pd.read_pickle(path) except FileNotFoundError:
embedding_cache = \x7b\x7d`.  Only `FileNotFoundError` (a missing file) is
caught and replaced by the empty dict; an unpicklable (corrupt) file raises a
different exception, which propagates to the caller. -/
def load_embedding_cache {α : Type} : CacheFile α → Except Unit (String × String → Option α)
  | .missing => .ok (fun _ => none)
  | .corrupt => .error ()
  | .stored contents => .ok contents

/-! ### Generic facts about the ranking -/

lemma pyKeyLE_total (d : List ℝ) : ∀ i j, pyKeyLE d i j ∨ pyKeyLE d j i := by
  intro i j
  rcases lt_trichotomy (d.getD i 0) (d.getD j 0) with h | h | h
  · exact Or.inl (Or.inl h)
  · rcases Nat.le_total i j with hij | hij
    · exact Or.inl (Or.inr ⟨h, hij⟩)
    · exact Or.inr (Or.inr ⟨h.symm, hij⟩)
  · exact Or.inr (Or.inl h)

lemma pyKeyLE_trans (d : List ℝ) :
    ∀ i j k, pyKeyLE d i j → pyKeyLE d j k → pyKeyLE d i k := by
  intro i j k hij hjk
  rcases hij with h1 | ⟨h1, h1'⟩ <;> rcases hjk with h2 | ⟨h2, h2'⟩
  · exact Or.inl (h1.trans h2)
  · exact Or.inl (h2 ▸ h1)
  · exact Or.inl (h1 ▸ h2)
  · exact Or.inr ⟨h1.trans h2, h1'.trans h2'⟩

/-- The ranking is a permutation of all indices of the distances list. -/
lemma iocm_perm (d : List ℝ) :
    (indices_of_closest_matches_from_distances d).Perm (List.range d.length) := by
  unfold indices_of_closest_matches_from_distances
  exact (List.reverse_perm _).trans
    (@List.perm_insertionSort ℕ (pyKeyLE d) (fun _ _ => Classical.propDecidable _) _)

/-- The ranking is sorted with respect to the reversed Python key order. -/
lemma iocm_sorted (d : List ℝ) :
    (indices_of_closest_matches_from_distances d).Sorted (fun i j => pyKeyLE d j i) := by
  haveI : IsTotal ℕ (pyKeyLE d) := ⟨pyKeyLE_total d⟩
  haveI : IsTrans ℕ (pyKeyLE d) := ⟨pyKeyLE_trans d⟩
  unfold indices_of_closest_matches_from_distances
  exact List.pairwise_reverse.2
    (@List.sorted_insertionSort ℕ (pyKeyLE d) (fun _ _ => Classical.propDecidable _) _ _ _)

/-- The ranking is sorted by non-increasing score. -/
lemma iocm_sorted_scores (d : List ℝ) :
    (indices_of_closest_matches_from_distances d).Sorted
      (fun i j => d.getD j 0 ≤ d.getD i 0) := by
  refine (iocm_sorted d).imp ?_
  rintro i j (h | ⟨h, -⟩)
  · exact h.le
  · exact h.le

/-- In a sorted list, an element that the relation does not allow after
another one occurs strictly earlier. -/
lemma sorted_indexOf_lt {r : ℕ → ℕ → Prop} {l : List ℕ} {a b : ℕ}
    (hs : l.Sorted r) (ha : a ∈ l) (hb : b ∈ l) (hba : ¬ r b a) (hne : a ≠ b) :
    l.indexOf a < l.indexOf b := by
  have hal : l.indexOf a < l.length := List.indexOf_lt_length.2 ha
  have hbl : l.indexOf b < l.length := List.indexOf_lt_length.2 hb
  rcases lt_trichotomy (l.indexOf a) (l.indexOf b) with h | h | h
  · exact h
  · exfalso
    apply hne
    have h1 := List.indexOf_get hal
    have h2 := List.indexOf_get hbl
    rw [← h1, ← h2]
    exact congrArg l.get (Fin.ext h)
  · exfalso
    apply hba
    have := hs.rel_get_of_lt (a := ⟨l.indexOf b, hbl⟩) (b := ⟨l.indexOf a, hal⟩) h
    rwa [List.indexOf_get hal, List.indexOf_get hbl] at this

/-- Tie-breaking of the source's ranking: among equal scores the **higher**
original index is ranked earlier (the stable ascending sort keeps the lower
index earlier, and the final reversal flips that). -/
lemma iocm_tie_break (d : List ℝ) (i j : ℕ) (hij : i < j) (hj : j < d.length)
    (heq : d.getD i 0 = d.getD j 0) :
    (indices_of_closest_matches_from_distances d).indexOf j <
      (indices_of_closest_matches_from_distances d).indexOf i := by
  have hperm := iocm_perm d
  have hmemi : i ∈ indices_of_closest_matches_from_distances d :=
    hperm.mem_iff.2 (List.mem_range.2 (hij.trans hj))
  have hmemj : j ∈ indices_of_closest_matches_from_distances d :=
    hperm.mem_iff.2 (List.mem_range.2 hj)
  refine sorted_indexOf_lt (iocm_sorted d) hmemj hmemi ?_ (by omega)
  rintro (h | ⟨-, h⟩)
  · exact absurd (heq ▸ h) (lt_irrefl _)
  · exact absurd h (Nat.not_le.2 hij)

/-- If the score of index `q` is strictly greater than the score of every
other index, then `q` is ranked first. -/
lemma iocm_head (d : List ℝ) (q : ℕ) (hq : q < d.length)
    (hmax : ∀ j, j < d.length → j ≠ q → d.getD j 0 < d.getD q 0) :
    (indices_of_closest_matches_from_distances d).head? = some q := by
  have hperm := iocm_perm d
  have hmemq : q ∈ indices_of_closest_matches_from_distances d :=
    hperm.mem_iff.2 (List.mem_range.2 hq)
  rcases hl : indices_of_closest_matches_from_distances d with - | ⟨h, t⟩
  · rw [hl] at hmemq; exact absurd hmemq (List.not_mem_nil q)
  have hsorted := iocm_sorted d
  rw [hl] at hsorted hmemq
  rcases List.mem_cons.1 hmemq with rfl | hqt
  · rfl
  by_cases hhq : h = q
  · simp [hhq]
  exfalso
  have hrel : pyKeyLE d q h := List.rel_of_sorted_cons hsorted q hqt
  have hhmem : h ∈ List.range d.length := by
    rw [← hperm.mem_iff, hl]; exact List.mem_cons_self h t
  have hhlt : d.getD h 0 < d.getD q 0 := hmax h (List.mem_range.1 hhmem) hhq
  rcases hrel with h1 | ⟨h1, -⟩
  · exact absurd (h1.trans hhlt) (lt_irrefl _)
  · exact absurd (h1 ▸ hhlt) (lt_irrefl _)

/-! ### Facts about the scores -/

lemma dot_self_nonneg (v : List ℝ) : 0 ≤ dot v v := by
  induction v with
  | nil => simp [dot]
  | cons x xs ih =>
    have : dot (x :: xs) (x :: xs) = x * x + dot xs xs := by
      simp [dot]
    rw [this]
    exact add_nonneg (mul_self_nonneg x) ih

/-- Self-similarity: a vector of nonzero norm has cosine similarity `1` with
itself. -/
lemma cosine_self (v : List ℝ) (hv : norm v ≠ 0) : cosine_similarity v v = 1 := by
  have h0 : dot v v ≠ 0 := by
    intro h
    exact hv (by rw [norm, h, Real.sqrt_zero])
  rw [cosine_similarity, norm, Real.mul_self_sqrt (dot_self_nonneg v)]
  exact div_self h0

/-- The `i`-th entry of the distances list is the cosine similarity of the
query with the `i`-th embedding. -/
lemma distances_getD (qv : List ℝ) (es : List (List ℝ)) (i : ℕ) (hi : i < es.length) :
    (distances_from_embeddings qv es).getD i 0 = cosine_similarity qv (es.getD i []) := by
  have hlen : i < (distances_from_embeddings qv es).length := by
    simpa [distances_from_embeddings] using hi
  rw [List.getD_eq_getElem _ _ hlen, List.getD_eq_getElem _ _ hi]
  simp [distances_from_embeddings]

lemma distances_length (qv : List ℝ) (es : List (List ℝ)) :
    (distances_from_embeddings qv es).length = es.length := by
  simp [distances_from_embeddings]

/-! ### Concrete evaluations used by the counterexamples and witnesses -/

lemma cos_ones : cosine_similarity [(1 : ℝ)] [(1 : ℝ)] = 1 := by
  simp [cosine_similarity, dot, norm]

lemma cos_e1_e1 : cosine_similarity [(1 : ℝ), 0] [(1 : ℝ), 0] = 1 := by
  simp [cosine_similarity, dot, norm]

lemma cos_e1_e2 : cosine_similarity [(1 : ℝ), 0] [(0 : ℝ), 1] = 0 := by
  simp [cosine_similarity, dot, norm]

lemma cos_zero_zero : cosine_similarity [(0 : ℝ)] [(0 : ℝ)] = 0 := by
  simp [cosine_similarity, dot]

lemma cos_zero_one : cosine_similarity [(0 : ℝ)] [(1 : ℝ)] = 0 := by
  simp [cosine_similarity, dot]

lemma norm_one_vec : norm [(1 : ℝ)] = 1 := by
  simp [norm, dot]

lemma norm_e1 : norm [(1 : ℝ), 0] = 1 := by
  simp [norm, dot]

lemma norm_e2 : norm [(0 : ℝ), 1] = 1 := by
  simp [norm, dot]

lemma norm_zero_vec : norm [(0 : ℝ)] = 0 := by
  simp [norm, dot]

lemma distances_ones :
    distances_from_embeddings [(1 : ℝ)] [[(1 : ℝ)], [(1 : ℝ)]] = [1, 1] := by
  simp [distances_from_embeddings, cos_ones]

lemma distances_axes :
    distances_from_embeddings [(1 : ℝ), 0] [[(1 : ℝ), 0], [(0 : ℝ), 1]] = [1, 0] := by
  simp [distances_from_embeddings, cos_e1_e1, cos_e1_e2]

lemma distances_aab :
    distances_from_embeddings [(1 : ℝ), 0]
      [[(1 : ℝ), 0], [(1 : ℝ), 0], [(0 : ℝ), 1]] = [1, 1, 0] := by
  simp [distances_from_embeddings, cos_e1_e1, cos_e1_e2]

lemma distances_zero :
    distances_from_embeddings [(0 : ℝ)] [[(0 : ℝ)], [(1 : ℝ)]] = [0, 0] := by
  simp [distances_from_embeddings, cos_zero_zero, cos_zero_one]

lemma iocm_ones : indices_of_closest_matches_from_distances [(1 : ℝ), 1] = [1, 0] := by
  have hc : pyKeyLE [(1 : ℝ), 1] 0 1 := Or.inr ⟨rfl, by omega⟩
  have hr : List.range 2 = [0, 1] := rfl
  simp [indices_of_closest_matches_from_distances, hr, hc]

lemma iocm_zeros : indices_of_closest_matches_from_distances [(0 : ℝ), 0] = [1, 0] := by
  have hc : pyKeyLE [(0 : ℝ), 0] 0 1 := Or.inr ⟨rfl, by omega⟩
  have hr : List.range 2 = [0, 1] := rfl
  simp [indices_of_closest_matches_from_distances, hr, hc]

lemma iocm_one_zero : indices_of_closest_matches_from_distances [(1 : ℝ), 0] = [0, 1] := by
  have hc : ¬ pyKeyLE [(1 : ℝ), 0] 0 1 := by
    rintro (h | ⟨h, -⟩) <;> norm_num at h
  have hr : List.range 2 = [0, 1] := rfl
  simp [indices_of_closest_matches_from_distances, hr, hc]

lemma iocm_aab : indices_of_closest_matches_from_distances [(1 : ℝ), 1, 0] = [1, 0, 2] := by
  have hc01 : pyKeyLE [(1 : ℝ), 1, 0] 0 1 := Or.inr ⟨rfl, by omega⟩
  have hc02 : ¬ pyKeyLE [(1 : ℝ), 1, 0] 0 2 := by
    rintro (h | ⟨h, -⟩) <;> norm_num [pyKeyLE] at h ⊢
  have hc12 : ¬ pyKeyLE [(1 : ℝ), 1, 0] 1 2 := by
    rintro (h | ⟨h, -⟩) <;> norm_num [pyKeyLE] at h ⊢
  have hr : List.range 3 = [0, 1, 2] := rfl
  simp [indices_of_closest_matches_from_distances, hr, hc01, hc02, hc12]

lemma rank_ones : rank [[(1 : ℝ)], [(1 : ℝ)]] 0 = [1, 0] := by
  simp [rank, distances_ones, iocm_ones]

lemma rank_axes : rank [[(1 : ℝ), 0], [(0 : ℝ), 1]] 0 = [0, 1] := by
  simp [rank, distances_axes, iocm_one_zero]

lemma rank_zero : rank [[(0 : ℝ)], [(1 : ℝ)]] 0 = [1, 0] := by
  simp [rank, distances_zero, iocm_zeros]

/-! ### Generic facts about the cache -/

lemma step_cache_preserves {α : Type} (g : String → String → α) (w : Bool)
    (s : CacheState α) (t m : String) (k : String × String) (v : α)
    (h : s.cache k = some v) :
    (embedding_from_string g w s t m).state.cache k = some v := by
  unfold embedding_from_string
  cases hc : s.cache (t, m) with
  | some u => exact h
  | none =>
    have hk : k ≠ (t, m) := by
      intro he; rw [he, hc] at h; exact Option.noConfusion h
    cases w <;> simp [hk, h]

lemma step_cache_populates {α : Type} (g : String → String → α) (w : Bool)
    (s : CacheState α) (t m : String) (h : s.cache (t, m) = none) :
    (embedding_from_string g w s t m).state.cache (t, m) = some (g t m) := by
  unfold embedding_from_string
  rw [h]
  cases w <;> simp

lemma step_hit {α : Type} (g : String → String → α) (w : Bool)
    (s : CacheState α) (t m : String) (v : α) (h : s.cache (t, m) = some v) :
    embedding_from_string g w s t m = ⟨.ok v, s, 0⟩ := by
  unfold embedding_from_string
  rw [h]

lemma runTrace_preserves {α : Type} (g : String → String → α)
    (reqs : List (String × String × Bool)) (s : CacheState α)
    (k : String × String) (v : α) (h : s.cache k = some v) :
    (runTrace g s reqs).cache k = some v := by
  induction reqs generalizing s with
  | nil => exact h
  | cons r rs ih =>
    obtain ⟨t, m, w⟩ := r
    exact ih _ (step_cache_preserves g w s t m k v h)

lemma runCalls_of_cached {α : Type} (g : String → String → α)
    (reqs : List (String × String × Bool)) (s : CacheState α)
    (k : String × String) (v : α) (h : s.cache k = some v) :
    runCalls g s reqs k = 0 := by
  induction reqs generalizing s with
  | nil => rfl
  | cons r rs ih =>
    obtain ⟨t, m, w⟩ := r
    rw [runCalls]
    rw [ih _ (step_cache_preserves g w s t m k v h)]
    by_cases he : (t, m) = k
    · rw [if_pos he, step_hit g w s t m v (he ▸ h)]
    · rw [if_neg he]

lemma runCalls_le_one {α : Type} (g : String → String → α)
    (reqs : List (String × String × Bool)) (s : CacheState α)
    (k : String × String) : runCalls g s reqs k ≤ 1 := by
  induction reqs generalizing s with
  | nil => exact Nat.zero_le 1
  | cons r rs ih =>
    obtain ⟨t, m, w⟩ := r
    rw [runCalls]
    by_cases he : (t, m) = k
    · rw [if_pos he]
      cases hc : s.cache (t, m) with
      | some v =>
        rw [step_hit g w s t m v hc]
        simpa using ih s
      | none =>
        have hpop := step_cache_populates g w s t m hc
        rw [runCalls_of_cached g rs _ k (g t m) (he ▸ hpop)]
        have hcalls : (embedding_from_string g w s t m).externalCalls = 1 := by
          unfold embedding_from_string
          rw [hc]
          cases w <;> simp
        omega
    · rw [if_neg he]
      simpa using ih (embedding_from_string g w s t m).state

/-! ### Evaluation of a cache miss -/

lemma step_miss_ok {α : Type} (g : String → String → α) (s : CacheState α)
    (t m : String) (hc : s.cache (t, m) = none) :
    embedding_from_string g true s t m =
      ⟨.ok (g t m),
       ⟨fun k => if k = (t, m) then some (g t m) else s.cache k,
        fun k => if k = (t, m) then some (g t m) else s.cache k⟩, 1⟩ := by
  unfold embedding_from_string
  rw [hc]
  rfl

lemma step_miss_fail {α : Type} (g : String → String → α) (s : CacheState α)
    (t m : String) (hc : s.cache (t, m) = none) :
    embedding_from_string g false s t m =
      ⟨.error (),
       ⟨fun k => if k = (t, m) then some (g t m) else s.cache k, s.disk⟩, 1⟩ := by
  unfold embedding_from_string
  rw [hc]
  rfl

/-- A request whose durable write succeeds keeps the durable copy identical to
the in-memory dict. -/
lemma step_inv {α : Type} (g : String → String → α) (s : CacheState α)
    (t m : String) (hinv : s.disk = s.cache) :
    (embedding_from_string g true s t m).state.disk =
      (embedding_from_string g true s t m).state.cache := by
  cases hc : s.cache (t, m) with
  | some u => rw [step_hit g true s t m u hc]; exact hinv
  | none => rw [step_miss_ok g s t m hc]

lemma opsCalls_of_cached {α : Type} (g : String → String → α) :
    ∀ (ops : List CacheOp) (s : CacheState α) (k : String × String) (v : α),
      writesOk ops → s.disk = s.cache → s.cache k = some v →
      opsCalls g s ops k = 0 := by
  intro ops
  induction ops with
  | nil => intro s k v _ _ _; rfl
  | cons op ops ih =>
    intro s k v hok hinv h
    cases op with
    | req t m w =>
      obtain ⟨rfl, hok⟩ := hok
      rw [opsCalls]
      rw [ih _ k v hok (step_inv g s t m hinv) (step_cache_preserves g true s t m k v h)]
      by_cases he : (t, m) = k
      · rw [if_pos he, step_hit g true s t m v (he ▸ h)]
      · rw [if_neg he]
    | restart =>
      rw [opsCalls]
      refine ih _ k v hok rfl ?_
      show s.disk k = some v
      rw [hinv]
      exact h

/-- Across a lifetime in which every durable write succeeds, the external
function is called at most once per key. -/
lemma opsCalls_le_one {α : Type} (g : String → String → α) :
    ∀ (ops : List CacheOp) (s : CacheState α) (k : String × String),
      writesOk ops → s.disk = s.cache → opsCalls g s ops k ≤ 1 := by
  intro ops
  induction ops with
  | nil => intro s k _ _; exact Nat.zero_le 1
  | cons op ops ih =>
    intro s k hok hinv
    cases op with
    | req t m w =>
      obtain ⟨rfl, hok⟩ := hok
      rw [opsCalls]
      by_cases he : (t, m) = k
      · rw [if_pos he]
        cases hc : s.cache (t, m) with
        | some v =>
          rw [step_hit g true s t m v hc]
          simpa using ih s k hok hinv
        | none =>
          have hpop := step_cache_populates g true s t m hc
          rw [opsCalls_of_cached g ops _ k (g t m) hok (step_inv g s t m hinv)
            (he ▸ hpop)]
          have hcalls : (embedding_from_string g true s t m).externalCalls = 1 := by
            rw [step_miss_ok g s t m hc]
          omega
      · rw [if_neg he]
        simpa using ih _ k hok (step_inv g s t m hinv)
    | restart =>
      rw [opsCalls]
      exact ih _ k hok rfl

/-! ### Facts about the recommendation loop -/

lemma printed_eq (embed : String → List ℝ) (strings : List String) (q k : ℕ) :
    (print_recommendations_from_strings embed strings q k).printed =
      collectRecs strings (strings.getD q "") k
        (indices_of_closest_matches_from_distances
          (distances_from_embeddings ((strings.map embed).getD q [])
            (strings.map embed))) 0 := rfl

lemma returned_eq (embed : String → List ℝ) (strings : List String) (q k : ℕ) :
    (print_recommendations_from_strings embed strings q k).returned =
      rank (strings.map embed) q := rfl

/-- Every index the loop emits has text different from the query text. -/
lemma collectRecs_all_ne (strings : List String) (qs : String) (k : ℕ) :
    ∀ (l : List ℕ) (c : ℕ),
      ((collectRecs strings qs k l c).all fun i => strings.getD i "" != qs) = true := by
  intro l
  induction l with
  | nil => intro c; rfl
  | cons i rest ih =>
    intro c
    rw [collectRecs]
    by_cases h : qs = strings.getD i ""
    · rw [if_pos h]; exact ih c
    · rw [if_neg h]
      by_cases hk : k ≤ c
      · rw [if_pos hk]; rfl
      · rw [if_neg hk]
        have h' : strings.getD i "" ≠ qs := fun hh => h hh.symm
        rw [List.all_cons, Bool.and_eq_true]
        exact ⟨bne_iff_ne.mpr h', ih (c + 1)⟩

/-- The loop emits exactly `min (k - c)` and the number of qualifying
(distinct-text) indices left in the ranking. -/
lemma collectRecs_length (strings : List String) (qs : String) (k : ℕ) :
    ∀ (l : List ℕ) (c : ℕ),
      (collectRecs strings qs k l c).length =
        min (k - c) ((l.filter fun i => strings.getD i "" != qs).length) := by
  intro l
  induction l with
  | nil => intro c; simp [collectRecs]
  | cons i rest ih =>
    intro c
    rw [collectRecs, List.filter_cons]
    by_cases h : qs = strings.getD i ""
    · rw [if_pos h]
      have hp : (strings.getD i "" != qs) = false := by simp [h]
      rw [hp, if_neg Bool.false_ne_true, ih c]
    · rw [if_neg h]
      have h' : strings.getD i "" ≠ qs := fun hh => h hh.symm
      have hp : (strings.getD i "" != qs) = true := bne_iff_ne.mpr h'
      rw [hp, if_pos rfl]
      by_cases hk : k ≤ c
      · rw [if_pos hk]
        simp [Nat.sub_eq_zero_of_le hk]
      · rw [if_neg hk]
        rw [List.length_cons, List.length_cons, ih (c + 1)]
        omega

/-! ### Claim C1 — tie-breaking of the full ranking -/

/-- Claim C1, counterexample.  For embeddings `[[1], [1]]` and query index 0
the two indices have equal cosine scores (both `1`), yet the ranking returned
by the source is `[1, 0]`: the **higher** original index 1 appears before the
lower index 0, refuting the claim that the lower index comes first.  (The
stable ascending sort puts 0 before 1, and the `[::-1]` reversal flips the
pair.) -/
theorem tie_break_counterexample :
    distances_from_embeddings [(1 : ℝ)] [[(1 : ℝ)], [(1 : ℝ)]] = [1, 1] ∧
    rank [[(1 : ℝ)], [(1 : ℝ)]] 0 = [1, 0] ∧
    (rank [[(1 : ℝ)], [(1 : ℝ)]] 0).indexOf 1 < (rank [[(1 : ℝ)], [(1 : ℝ)]] 0).indexOf 0 :=
  ⟨distances_ones, rank_ones, by rw [rank_ones]; decide⟩

/-- Claim C1, amended: whenever two valid indices have equal
cosine-similarity scores to the query, the index with the **higher** original
position appears before the lower one in the returned ranking. -/
theorem tie_break_higher_index_first (es : List (List ℝ)) (q i j : ℕ)
    (hij : i < j) (hj : j < es.length)
    (heq : (distances_from_embeddings (es.getD q []) es).getD i 0 =
      (distances_from_embeddings (es.getD q []) es).getD j 0) :
    (rank es q).indexOf j < (rank es q).indexOf i :=
  iocm_tie_break _ i j hij (by rwa [distances_length]) heq

/-- Witness for `tie_break_higher_index_first` at embeddings `[[1], [1]]`,
query 0, indices 0 and 1. -/
theorem tie_break_higher_index_first_witness :
    (0 < 1 ∧ 1 < ([[(1 : ℝ)], [(1 : ℝ)]] : List (List ℝ)).length ∧
      (distances_from_embeddings ([[(1 : ℝ)], [(1 : ℝ)]].getD 0 [])
        [[(1 : ℝ)], [(1 : ℝ)]]).getD 0 0 =
      (distances_from_embeddings ([[(1 : ℝ)], [(1 : ℝ)]].getD 0 [])
        [[(1 : ℝ)], [(1 : ℝ)]]).getD 1 0) ∧
    (rank [[(1 : ℝ)], [(1 : ℝ)]] 0).indexOf 1 < (rank [[(1 : ℝ)], [(1 : ℝ)]] 0).indexOf 0 :=
  ⟨⟨Nat.zero_lt_one, by norm_num, rfl⟩,
   tie_break_higher_index_first [[(1 : ℝ)], [(1 : ℝ)]] 0 0 1
     Nat.zero_lt_one (by norm_num) rfl⟩

/-! ### Claim C2 — ranking order and completeness -/

/-- Claim C2, counterexample.  The embeddings `[[1], [1]]` are non-empty and
have no zero-norm vector (both norms are `1`), yet for query index 0 the
returned ranking is `[1, 0]`: the query index does **not** appear first
(index 1, whose embedding ties at score `1.0`, is ranked first by the
reversed stable sort). -/
theorem ranking_query_not_first_counterexample :
    norm [(1 : ℝ)] = 1 ∧ rank [[(1 : ℝ)], [(1 : ℝ)]] 0 = [1, 0] ∧
    (rank [[(1 : ℝ)], [(1 : ℝ)]] 0).head? ≠ some 0 :=
  ⟨norm_one_vec, rank_ones, by rw [rank_ones]; decide⟩

/-- Claim C2, amended: for a non-empty sequence of embeddings with no
zero-norm vector and a valid query index, the returned ranking is a
permutation of all indices, sorted by non-increasing score, and the query's
own score is `1.0`; the query index appears first provided every **other**
index has score strictly below `1.0` (when another index ties at `1.0`, the
reversal of the stable sort places the highest tying index first instead). -/
theorem ranking_order_amended (es : List (List ℝ)) (q : ℕ) (hq : q < es.length)
    (hnz : ∀ e ∈ es, norm e ≠ 0) :
    (rank es q).Perm (List.range es.length) ∧
    (rank es q).Sorted (fun i j =>
      (distances_from_embeddings (es.getD q []) es).getD j 0 ≤
        (distances_from_embeddings (es.getD q []) es).getD i 0) ∧
    (distances_from_embeddings (es.getD q []) es).getD q 0 = 1 ∧
    ((∀ j, j < es.length → j ≠ q →
        (distances_from_embeddings (es.getD q []) es).getD j 0 < 1) →
      (rank es q).head? = some q) := by
  have hscore : (distances_from_embeddings (es.getD q []) es).getD q 0 = 1 := by
    rw [distances_getD _ _ _ hq]
    refine cosine_self _ (hnz _ ?_)
    rw [List.getD_eq_getElem _ _ hq]
    exact List.getElem_mem hq
  refine ⟨?_, iocm_sorted_scores _, hscore, ?_⟩
  · have h := iocm_perm (distances_from_embeddings (es.getD q []) es)
    rwa [distances_length] at h
  · intro hlt
    refine iocm_head _ q (by rwa [distances_length]) ?_
    intro j hjlen hjq
    rw [hscore]
    exact hlt j (by rwa [distances_length] at hjlen) hjq

/-- Witness for `ranking_order_amended` at embeddings `[[1,0], [0,1]]`,
query 0: the hypotheses hold, and the query is ranked first. -/
theorem ranking_order_amended_witness :
    (0 < ([[(1 : ℝ), 0], [(0 : ℝ), 1]] : List (List ℝ)).length ∧
      (∀ e ∈ ([[(1 : ℝ), 0], [(0 : ℝ), 1]] : List (List ℝ)), norm e ≠ 0)) ∧
    (rank [[(1 : ℝ), 0], [(0 : ℝ), 1]] 0).head? = some 0 := by
  have hq : 0 < ([[(1 : ℝ), 0], [(0 : ℝ), 1]] : List (List ℝ)).length := by norm_num
  have hnz : ∀ e ∈ ([[(1 : ℝ), 0], [(0 : ℝ), 1]] : List (List ℝ)), norm e ≠ 0 := by
    intro e he
    rcases List.mem_cons.1 he with rfl | he
    · rw [norm_e1]; norm_num
    rcases List.mem_cons.1 he with rfl | he
    · rw [norm_e2]; norm_num
    exact absurd he (List.not_mem_nil e)
  have hd : distances_from_embeddings (([[(1 : ℝ), 0], [(0 : ℝ), 1]] :
      List (List ℝ)).getD 0 []) [[(1 : ℝ), 0], [(0 : ℝ), 1]] = [1, 0] := distances_axes
  have hlt : ∀ j, j < ([[(1 : ℝ), 0], [(0 : ℝ), 1]] : List (List ℝ)).length → j ≠ 0 →
      (distances_from_embeddings (([[(1 : ℝ), 0], [(0 : ℝ), 1]] :
        List (List ℝ)).getD 0 []) [[(1 : ℝ), 0], [(0 : ℝ), 1]]).getD j 0 < 1 := by
    intro j hjl hj0
    rw [hd]
    match j with
    | 0 => exact absurd rfl hj0
    | 1 => norm_num [List.getD_cons_succ, List.getD_cons_zero]
    | n + 2 => simp at hjl
  exact ⟨⟨hq, hnz⟩, (ranking_order_amended _ 0 hq hnz).2.2.2 hlt⟩

/-! ### Claim C3 — degenerate-vector policy -/

/-- Claim C3, counterexample.  The input `[[0], [1]]` contains the zero-norm
embedding `[0]`, yet the similarity ranking does not fail at all: the source
has no `DegenerateVectorError` (nothing is raised — NumPy merely evaluates
the division-by-zero score; in this real-number model the degenerate scores
are the division-by-zero value `0`), and the ranking `[1, 0]` of all indices
is returned. -/
theorem degenerate_not_rejected_counterexample :
    norm [(0 : ℝ)] = 0 ∧
    distances_from_embeddings [(0 : ℝ)] [[(0 : ℝ)], [(1 : ℝ)]] = [0, 0] ∧
    rank [[(0 : ℝ)], [(1 : ℝ)]] 0 = [1, 0] :=
  ⟨norm_zero_vec, distances_zero, rank_zero⟩

/-- Claim C3, amended: a zero-norm embedding among the inputs is **not**
rejected — the ranking operation is total and still returns a full ranking of
all indices (the degenerate scores come out of the division expression, which
NumPy evaluates to NaN/Inf values rather than raising). -/
theorem rank_total_on_zero_norm (es : List (List ℝ)) (q : ℕ) (e : List ℝ)
    (he : e ∈ es) (h0 : norm e = 0) :
    (rank es q).Perm (List.range es.length) ∧ (rank es q).length = es.length := by
  have h := iocm_perm (distances_from_embeddings (es.getD q []) es)
  rw [distances_length] at h
  exact ⟨h, by unfold rank; rw [h.length_eq, List.length_range]⟩

/-- Witness for `rank_total_on_zero_norm` at `[[0], [1]]`, query 0. -/
theorem rank_total_on_zero_norm_witness :
    ([(0 : ℝ)] ∈ ([[(0 : ℝ)], [(1 : ℝ)]] : List (List ℝ)) ∧ norm [(0 : ℝ)] = 0) ∧
    (rank [[(0 : ℝ)], [(1 : ℝ)]] 0).Perm (List.range 2) :=
  ⟨⟨List.mem_cons_self _ _, norm_zero_vec⟩,
   (rank_total_on_zero_norm [[(0 : ℝ)], [(1 : ℝ)]] 0 [(0 : ℝ)]
     (List.mem_cons_self _ _) norm_zero_vec).1⟩

/-! ### Claim C4 — cache idempotence and at-most-once external computation -/

/-- Claim C4, counterexample.  The at-most-once guarantee is claimed for the
cache's whole lifetime across restarts reusing the durable store, but a
failed durable write breaks it: starting from an empty cache, a miss on
`("t", "m")` whose pickle dump fails (first external call, entry never
persisted), then a process restart reloading the durable store, then a
re-request of the same key (second external call) makes **two** external
calls for one (text, model) pair. -/
theorem at_most_once_across_restarts_counterexample :
    opsCalls (fun _ _ => (7 : ℕ)) (emptyState ℕ)
      [CacheOp.req "t" "m" false, CacheOp.restart, CacheOp.req "t" "m" true]
      ("t", "m") = 2 ∧
    ¬ opsCalls (fun _ _ => (7 : ℕ)) (emptyState ℕ)
      [CacheOp.req "t" "m" false, CacheOp.restart, CacheOp.req "t" "m" true]
      ("t", "m") ≤ 1 :=
  ⟨rfl, by decide⟩

/-- Claim C4, amended: if a call to `embedding_from_string` returns a vector
`v` for (text, model), an immediately following call for the same key returns
the identical vector and performs zero external `get_embedding` calls;
within one in-memory cache lifetime (one session, arbitrary persistence
outcomes) at most one external call is made per distinct (text, model) key;
and the at-most-once guarantee extends across restarts reusing the durable
store **provided every durable-store write succeeds** (a failed write loses
the entry at the next restart, forcing a recomputation). -/
theorem cache_idempotent_at_most_once {α : Type} (g : String → String → α)
    (w₁ w₂ : Bool) (s : CacheState α) (t m : String) (v : α)
    (h : (embedding_from_string g w₁ s t m).ret = .ok v) :
    (embedding_from_string g w₂ (embedding_from_string g w₁ s t m).state t m).ret = .ok v ∧
    (embedding_from_string g w₂
      (embedding_from_string g w₁ s t m).state t m).externalCalls = 0 ∧
    (∀ (reqs : List (String × String × Bool)) (k : String × String),
      runCalls g (emptyState α) reqs k ≤ 1) ∧
    (∀ (ops : List CacheOp) (k : String × String), writesOk ops →
      opsCalls g (emptyState α) ops k ≤ 1) := by
  have hsome : (embedding_from_string g w₁ s t m).state.cache (t, m) = some v := by
    cases hc : s.cache (t, m) with
    | some u =>
      rw [step_hit g w₁ s t m u hc] at h ⊢
      simp only [Except.ok.injEq] at h
      rw [h] at hc
      exact hc
    | none =>
      cases w₁ with
      | false =>
        rw [step_miss_fail g s t m hc] at h
        exact absurd h (by simp)
      | true =>
        rw [step_miss_ok g s t m hc] at h ⊢
        simp only [Except.ok.injEq] at h
        simp [h]

  rw [step_hit g w₂ _ t m v hsome]
  exact ⟨rfl, rfl, fun reqs k => runCalls_le_one g reqs _ k,
    fun ops k hok => opsCalls_le_one g ops _ k hok rfl⟩

/-- Witness for `cache_idempotent_at_most_once`: a fresh cache, the mock
embedding function that always returns `7`, key `("t", "m")`, a one-session
trace with a failing write, and an all-writes-succeed lifetime containing a
restart. -/
theorem cache_idempotent_at_most_once_witness :
    ((embedding_from_string (fun _ _ => 7) true (emptyState ℕ) "t" "m").ret =
      Except.ok 7) ∧
    (embedding_from_string (fun _ _ => 7) true
      (embedding_from_string (fun _ _ => 7) true (emptyState ℕ) "t" "m").state
      "t" "m").ret = Except.ok 7 ∧
    (embedding_from_string (fun _ _ => 7) true
      (embedding_from_string (fun _ _ => 7) true (emptyState ℕ) "t" "m").state
      "t" "m").externalCalls = 0 ∧
    runCalls (fun _ _ => 7) (emptyState ℕ)
      [("t", "m", true), ("t", "m", false)] ("t", "m") ≤ 1 ∧
    (writesOk [CacheOp.req "t" "m" true, CacheOp.restart, CacheOp.req "t" "m" true] ∧
      opsCalls (fun _ _ => 7) (emptyState ℕ)
        [CacheOp.req "t" "m" true, CacheOp.restart, CacheOp.req "t" "m" true]
        ("t", "m") ≤ 1) := by
  have h : (embedding_from_string (fun _ _ => 7) true (emptyState ℕ) "t" "m").ret =
      Except.ok 7 := by
    rw [step_miss_ok (fun _ _ => 7) (emptyState ℕ) "t" "m" rfl]
  have hok : writesOk [CacheOp.req "t" "m" true, CacheOp.restart,
      CacheOp.req "t" "m" true] := ⟨rfl, rfl, trivial⟩
  have happ := cache_idempotent_at_most_once (fun _ _ => 7) true true
    (emptyState ℕ) "t" "m" 7 h
  exact ⟨h, happ.1, happ.2.1,
    happ.2.2.1 [("t", "m", true), ("t", "m", false)] ("t", "m"),
    hok,
    happ.2.2.2 [CacheOp.req "t" "m" true, CacheOp.restart, CacheOp.req "t" "m" true]
      ("t", "m") hok⟩

/-! ### Claim C5 — cache-load error tolerance -/

/-- Claim C5, counterexample.  A corrupt cache file is **not** treated as an
empty cache: the load block catches only `FileNotFoundError`, so the
deserialization error of a corrupt file propagates instead of yielding the
empty mapping. -/
theorem load_corrupt_counterexample :
    load_embedding_cache (CacheFile.corrupt : CacheFile ℕ) = Except.error () ∧
    load_embedding_cache (CacheFile.corrupt : CacheFile ℕ) ≠
      Except.ok (fun _ => none) :=
  ⟨rfl, fun h => Except.noConfusion h⟩

/-- Claim C5, amended: at startup a **missing** cache file is tolerated and
treated as an empty cache, and a readable file yields its stored mapping; a
**corrupt** (undeserializable) file is not tolerated — the error surfaces to
the caller. -/
theorem load_missing_tolerated_corrupt_not (α : Type) :
    load_embedding_cache (CacheFile.missing : CacheFile α) =
      Except.ok (fun _ => none) ∧
    load_embedding_cache (CacheFile.corrupt : CacheFile α) = Except.error () ∧
    ∀ contents, load_embedding_cache (CacheFile.stored contents : CacheFile α) =
      Except.ok contents :=
  ⟨rfl, rfl, fun _ => rfl⟩

/-! ### Claim C8 — in-memory cache survives persistence failure -/

/-- Claim C8: on a cache miss whose durable-store write fails, the persistence
error is surfaced, yet the newly computed embedding is already in the
in-memory cache (the insertion happens before the write is attempted) and
only the durable copy is left stale. -/
theorem inmemory_survives_persist_failure {α : Type} (g : String → String → α)
    (s : CacheState α) (t m : String) (h : s.cache (t, m) = none) :
    (embedding_from_string g false s t m).ret = .error () ∧
    (embedding_from_string g false s t m).state.cache (t, m) = some (g t m) ∧
    (embedding_from_string g false s t m).state.disk = s.disk := by
  rw [step_miss_fail g s t m h]
  exact ⟨rfl, by simp, rfl⟩

/-- Witness for `inmemory_survives_persist_failure`: fresh cache, mock
embedding function returning `7`, key `("t", "m")`. -/
theorem inmemory_survives_persist_failure_witness :
    ((emptyState ℕ).cache ("t", "m") = none) ∧
    (embedding_from_string (fun _ _ => 7) false (emptyState ℕ) "t" "m").ret =
      Except.error () ∧
    (embedding_from_string (fun _ _ => 7) false
      (emptyState ℕ) "t" "m").state.cache ("t", "m") = some 7 :=
  ⟨rfl,
   (inmemory_survives_persist_failure (fun _ _ => 7) (emptyState ℕ) "t" "m" rfl).1,
   (inmemory_survives_persist_failure (fun _ _ => 7) (emptyState ℕ) "t" "m" rfl).2.1⟩

/-! ### Claim C9 — cache write-once invariant -/

/-- Claim C9: once a (text, model) entry holds a value `v`, any sequence of
subsequent `embedding_from_string` calls leaves it mapped to exactly `v`
(entries are never overwritten, removed or recomputed); and when an entry is
first populated, the stored value is exactly the output of the external
embedding function for that key. -/
theorem cache_write_once {α : Type} (g : String → String → α) (s : CacheState α)
    (k : String × String) (v : α) (h : s.cache k = some v) :
    (∀ reqs, (runTrace g s reqs).cache k = some v) ∧
    (∀ t m w, s.cache (t, m) = none →
      (embedding_from_string g w s t m).state.cache (t, m) = some (g t m)) :=
  ⟨fun reqs => runTrace_preserves g reqs s k v h,
   fun t m w h0 => step_cache_populates g w s t m h0⟩

/-- Witness for `cache_write_once`: a cache holding `("t", "m") ↦ 5` keeps
that exact value across a trace that re-requests the key and also misses on
another key with a failing write. -/
theorem cache_write_once_witness :
    ((⟨fun k => if k = ("t", "m") then some 5 else none, fun _ => none⟩ :
        CacheState ℕ).cache ("t", "m") = some 5) ∧
    (runTrace (fun _ _ => 7)
      (⟨fun k => if k = ("t", "m") then some 5 else none, fun _ => none⟩ : CacheState ℕ)
      [("t", "m", true), ("u", "m", false)]).cache ("t", "m") = some 5 := by
  have h : (⟨fun k => if k = ("t", "m") then some 5 else none, fun _ => none⟩ :
      CacheState ℕ).cache ("t", "m") = some 5 := by simp
  exact ⟨h,
    (cache_write_once (fun _ _ => 7) _ ("t", "m") 5 h).1
      [("t", "m", true), ("u", "m", false)]⟩

/-! ### Claim C6 — duplicate-text exclusion -/

/-- Claim C6: the recommendation loop never emits an index whose text equals
the query's text — for every corpus, query index and `k`; and in the spec's
concrete instance, corpus `["A", "A", "B"]` (both copies of "A" sharing one
embedding) with query index 0 and `k = 1` yields exactly the recommendation
index 2. -/
theorem duplicate_text_exclusion :
    (∀ (embed : String → List ℝ) (strings : List String) (q k : ℕ),
      ((print_recommendations_from_strings embed strings q k).printed.all
        fun i => strings.getD i "" != strings.getD q "") = true) ∧
    (print_recommendations_from_strings twoClusterEmbed ["A", "A", "B"] 0 1).printed =
      [2] := by
  constructor
  · intro embed strings q k
    rw [printed_eq]
    exact collectRecs_all_ne strings (strings.getD q "") k _ 0
  · rw [printed_eq]
    have hmap : (["A", "A", "B"].map twoClusterEmbed) =
        [[(1 : ℝ), 0], [(1 : ℝ), 0], [(0 : ℝ), 1]] := by
      simp [twoClusterEmbed]
    rw [hmap]
    have hd : distances_from_embeddings
        (([[(1 : ℝ), 0], [(1 : ℝ), 0], [(0 : ℝ), 1]] : List (List ℝ)).getD 0 [])
        [[(1 : ℝ), 0], [(1 : ℝ), 0], [(0 : ℝ), 1]] = [1, 1, 0] := distances_aab
    rw [hd, iocm_aab]
    decide

/-! ### Claim C7 — k-truncation with insufficient candidates -/

/-- Claim C7: the loop emits exactly `min k (number of ranking entries whose
text differs from the query's)` recommendations — with fewer than `k`
qualifying entries it emits all of them, with no error and no padding; in the
spec's concrete instance, a 2-element distinct-text corpus with `k = 5`
yields exactly `[1]`. -/
theorem k_truncation :
    (∀ (embed : String → List ℝ) (strings : List String) (q k : ℕ),
      (print_recommendations_from_strings embed strings q k).printed.length =
        min k (((print_recommendations_from_strings embed strings q k).returned.filter
          fun i => strings.getD i "" != strings.getD q "").length)) ∧
    (print_recommendations_from_strings twoClusterEmbed ["A", "B"] 0 5).printed =
      [1] := by
  constructor
  · intro embed strings q k
    rw [printed_eq, returned_eq]
    have h := collectRecs_length strings (strings.getD q "") k
      (indices_of_closest_matches_from_distances
        (distances_from_embeddings ((strings.map embed).getD q [])
          (strings.map embed))) 0
    rw [h, Nat.sub_zero]
    rfl
  · rw [printed_eq]
    have hmap : (["A", "B"].map twoClusterEmbed) = [[(1 : ℝ), 0], [(0 : ℝ), 1]] := by
      simp [twoClusterEmbed]
    rw [hmap]
    have hd : distances_from_embeddings
        (([[(1 : ℝ), 0], [(0 : ℝ), 1]] : List (List ℝ)).getD 0 [])
        [[(1 : ℝ), 0], [(0 : ℝ), 1]] = [1, 0] := distances_axes
    rw [hd, iocm_one_zero]
    decide

/-! ### Claim C10 — return value independent of `k` -/

/-- Claim C10: the list returned by `print_recommendations_from_strings` is
the full unfiltered descending ranking of all corpus indices — identical for
every value of `k_nearest_neighbors`; the `k`-limit and the duplicate-text
filtering affect only what is printed. -/
theorem returned_independent_of_k :
    ∀ (embed : String → List ℝ) (strings : List String) (q k k' : ℕ),
      (print_recommendations_from_strings embed strings q k).returned =
        (print_recommendations_from_strings embed strings q k').returned ∧
      (print_recommendations_from_strings embed strings q k).returned =
        rank (strings.map embed) q ∧
      (print_recommendations_from_strings embed strings q k).returned.Perm
        (List.range strings.length) ∧
      (print_recommendations_from_strings embed strings q k).returned.Sorted
        (fun i j =>
          (distances_from_embeddings ((strings.map embed).getD q [])
            (strings.map embed)).getD j 0 ≤
          (distances_from_embeddings ((strings.map embed).getD q [])
            (strings.map embed)).getD i 0) := by
  intro embed strings q k k'
  refine ⟨rfl, returned_eq embed strings q k, ?_, ?_⟩
  · rw [returned_eq]
    have h := iocm_perm (distances_from_embeddings ((strings.map embed).getD q [])
      (strings.map embed))
    rw [distances_length, List.length_map] at h
    exact h
  · rw [returned_eq]
    exact iocm_sorted_scores _

end EmbeddingSearch
